import Mathlib

/-!
Verification of the MediaPipe dataflow-engine specification.

The repository sources available here are `mediapipe/framework/deps/file_helpers.cc`
(`Exists`, `mkdir`, `RecursivelyCreateDir`, ...), a calculator header and a
calculator test.  The scheduling/stream engine itself (Timestamp, Stream,
Scheduler, CalculatorGraph) is only referenced by those files, so its model
below is built from the specification text and marked `Modelled from the spec`.
`file_helpers.cc` functions are embedded directly from the source.
-/

namespace MPTime

/-- Lower bound of the 64-bit signed integer range used by timestamps. -/
def int64Min : Int := -(2 ^ 63)

/-- Upper bound of the 64-bit signed integer range used by timestamps. -/
def int64Max : Int := 2 ^ 63 - 1

/-- Modelled from the spec: "Timestamp: an integer logical tick plus sentinel
constants".  A timestamp is a 64-bit signed integer value; the sentinels sit at
the extremes of the range and real ticks occupy the interior. -/
structure Timestamp where
  v : Int
  lo : int64Min ≤ v
  hi : v ≤ int64Max

theorem Timestamp.ext_iff' (a b : Timestamp) : a = b ↔ a.v = b.v := by
  constructor
  · intro h; rw [h]
  · intro h
    cases a with
    | mk va la ha =>
      cases b with
      | mk vb lb hb =>
        simp only at h
        subst h
        rfl

instance : DecidableEq Timestamp := fun a b =>
  decidable_of_iff (a.v = b.v) (Timestamp.ext_iff' a b).symm

/-- Modelled from the spec: sentinel `Unset` (used only as an absence marker). -/
def tsUnset : Timestamp := ⟨int64Min, by decide, by decide⟩

/-- Modelled from the spec: sentinel `Unstarted`, below all real ticks. -/
def tsUnstarted : Timestamp := ⟨int64Min + 1, by decide, by decide⟩

/-- Modelled from the spec: sentinel `Min`. -/
def tsMin : Timestamp := ⟨int64Min + 2, by decide, by decide⟩

/-- Modelled from the spec: sentinel `PreStream`; the chain `Min ≤ PreStream`
is realised by `PreStream = Min`. -/
def tsPreStream : Timestamp := tsMin

/-- Modelled from the spec: sentinel `Max`. -/
def tsMax : Timestamp := ⟨int64Max - 1, by decide, by decide⟩

/-- Modelled from the spec: sentinel `PostStream`; the chain
`PostStream ≤ Max` is realised by `PostStream = Max`. -/
def tsPostStream : Timestamp := tsMax

/-- Modelled from the spec: sentinel `Done`, above all real ticks. -/
def tsDone : Timestamp := ⟨int64Max, by decide, by decide⟩

/-- Total-order comparison on timestamps (comparison of the underlying value). -/
def tsLe (a b : Timestamp) : Prop := a.v ≤ b.v

/-- Strict comparison on timestamps. -/
def tsLt (a b : Timestamp) : Prop := a.v < b.v

instance (a b : Timestamp) : Decidable (tsLe a b) := by unfold tsLe; infer_instance

instance (a b : Timestamp) : Decidable (tsLt a b) := by unfold tsLt; infer_instance

/-- A real tick: any timestamp value strictly between the low sentinels and the
high sentinels. -/
def isRealTick (t : Timestamp) : Prop := tsMin.v < t.v ∧ t.v < tsMax.v

instance (t : Timestamp) : Decidable (isRealTick t) := by unfold isRealTick; infer_instance

/-- A sentinel value of the timestamp type. -/
def isSentinel (t : Timestamp) : Prop :=
  t = tsUnset ∨ t = tsUnstarted ∨ t = tsMin ∨ t = tsPreStream ∨ t = tsMax ∨
    t = tsPostStream ∨ t = tsDone

instance (t : Timestamp) : Decidable (isSentinel t) := by unfold isSentinel; infer_instance

/-- The failure condition raised by timestamp arithmetic on sentinels. -/
inductive TsError where
  | invalidTimestamp
deriving DecidableEq

/-- Modelled from the spec: `next()` is defined only on real ticks and fails
with an `InvalidTimestamp` condition on sentinels. -/
def Timestamp.next (t : Timestamp) : Except TsError Timestamp :=
  if h : tsMin.v < t.v ∧ t.v < tsMax.v then
    .ok ⟨t.v + 1, by have hl := t.lo; omega,
      by have h2 := h.2; simp only [tsMax] at h2; omega⟩
  else
    .error .invalidTimestamp

/-- Modelled from the spec: `previous()` is defined only on real ticks and
fails with an `InvalidTimestamp` condition on sentinels. -/
def Timestamp.previous (t : Timestamp) : Except TsError Timestamp :=
  if h : tsMin.v < t.v ∧ t.v < tsMax.v then
    .ok ⟨t.v - 1, by have h1 := h.1; simp only [tsMin] at h1; omega,
      by have hh := t.hi; omega⟩
  else
    .error .invalidTimestamp

/-- A concrete real tick used by witnesses. -/
def tick0 : Timestamp := ⟨0, by decide, by decide⟩

end MPTime

namespace MPTime

/-- C7: Timestamp comparison is a total order over all values (real ticks and
sentinels) satisfying the chain
`Unstarted < Min ≤ PreStream < any real tick < PostStream ≤ Max < Done`. -/
theorem c7_timestamp_total_order :
    (∀ a b : Timestamp, tsLe a b ∨ tsLe b a) ∧
    (∀ a b : Timestamp, tsLe a b → tsLe b a → a = b) ∧
    (∀ a b c : Timestamp, tsLe a b → tsLe b c → tsLe a c) ∧
    tsLt tsUnstarted tsMin ∧ tsLe tsMin tsPreStream ∧
    (∀ t : Timestamp, isRealTick t → tsLt tsPreStream t ∧ tsLt t tsPostStream) ∧
    tsLe tsPostStream tsMax ∧ tsLt tsMax tsDone := by
  refine ⟨?_, ?_, ?_, by decide, by decide, ?_, by decide, by decide⟩
  · intro a b; unfold tsLe; omega
  · intro a b hab hba
    unfold tsLe at hab hba
    exact (Timestamp.ext_iff' a b).mpr (le_antisymm hab hba)
  · intro a b c hab hbc; unfold tsLe at *; omega
  · intro t ht
    exact ⟨ht.1, ht.2⟩

/-- C7 witness: the chain holds at the concrete real tick `0`. -/
theorem c7_timestamp_total_order_witness :
    tsLt tsPreStream tick0 ∧ tsLt tick0 tsPostStream :=
  c7_timestamp_total_order.2.2.2.2.2.1 tick0 (by decide)

/-- C8: `next()` and `previous()` succeed on every real tick and fail with the
`InvalidTimestamp` condition on every sentinel value. -/
theorem c8_arithmetic_ticks_only :
    (∀ t : Timestamp, isRealTick t →
      (∃ u, t.next = .ok u) ∧ (∃ w, t.previous = .ok w)) ∧
    (∀ t : Timestamp, isSentinel t →
      t.next = .error .invalidTimestamp ∧ t.previous = .error .invalidTimestamp) := by
  constructor
  · intro t ht
    have ht' : tsMin.v < t.v ∧ t.v < tsMax.v := ht
    constructor
    · exact ⟨_, by unfold Timestamp.next; rw [dif_pos ht']⟩
    · exact ⟨_, by unfold Timestamp.previous; rw [dif_pos ht']⟩
  · intro t ht
    have hnot : ¬ (tsMin.v < t.v ∧ t.v < tsMax.v) := by
      rcases ht with h | h | h | h | h | h | h <;> subst h <;> decide
    constructor
    · unfold Timestamp.next
      rw [dif_neg hnot]
    · unfold Timestamp.previous
      rw [dif_neg hnot]

/-- C8 witness: the statement evaluated at the real tick `0` and at the
sentinel `Done`. -/
theorem c8_arithmetic_ticks_only_witness :
    ((∃ u, tick0.next = .ok u) ∧ (∃ w, tick0.previous = .ok w)) ∧
      (tsDone.next = .error .invalidTimestamp ∧
        tsDone.previous = .error .invalidTimestamp) :=
  ⟨c8_arithmetic_ticks_only.1 tick0 (by decide),
    c8_arithmetic_ticks_only.2 tsDone (by decide)⟩

end MPTime

namespace FileHelpers

/-- POSIX `EACCES` errno value. -/
def EACCES : Nat := 13

/-- Result of a `stat`/`mkdir` system call: `ok` on success, otherwise the
`errno` value the call set. -/
inductive SysResult where
  | ok
  | error (errno : Nat)
deriving DecidableEq

/-- The `absl::Status` values produced by `file_helpers.cc`. -/
inductive Status where
  | ok
  | permissionDenied (msg : String)
  | notFound (msg : String)
  | unavailable (msg : String)
deriving DecidableEq

/-- A filesystem oracle supplying the outcomes of the `stat` and `mkdir`
system calls; paths are character lists. -/
structure FSys where
  stat : List Char → SysResult
  mkdirSys : List Char → SysResult

/-- Embeds `Exists` from `file_helpers.cc` (named `ExistsPath` because `Exists`
is taken by the logic): `stat` success gives `OkStatus`; on failure `EACCES`
gives `PermissionDeniedError` and any other errno gives `NotFoundError`. -/
def ExistsPath (fs : FSys) (file_name : List Char) : Status :=
  match fs.stat file_name with
  | .ok => .ok
  | .error e =>
    if e = EACCES then .permissionDenied "Insufficient permissions."
    else .notFound "The path does not exist."

/-- Index of the last `/` in a path, if any (the `find_last_of('/')` of
`SplitPath` in `file_path.cc`). -/
def lastSlash : List Char → Option Nat
  | [] => none
  | c :: cs =>
    match lastSlash cs with
    | some i => some (i + 1)
    | none => if c = '/' then some 0 else none

/-- Modelled from the spec: the directory part of `SplitPath` from
`file_path.cc`, which is not under the available sources; it splits at the
final `/` — no slash gives the empty prefix, a slash at position 0 gives the
root `"/"`, otherwise the prefix before the final slash. -/
def splitPathFirst (path : List Char) : List Char :=
  match lastSlash path with
  | none => []
  | some 0 => ['/']
  | some pos => path.take pos

/-- Embeds `RecursivelyCreateDir` from `file_helpers.cc`, with an explicit
fuel so the (possibly non-terminating) recursion is total in Lean: `none`
means the fuel ran out, i.e. the C++ recursion has not returned within that
many nested calls. -/
def RecursivelyCreateDir (fs : FSys) : Nat → List Char → Option Status
  | 0, _ => none
  | fuel + 1, path =>
    if path = [] ∨ ExistsPath fs path = .ok then some .ok
    else
      match RecursivelyCreateDir fs fuel (splitPathFirst path) with
      | none => none
      | some .ok =>
        match fs.mkdirSys path with
        | .ok => some .ok
        | .error e =>
          if e = EACCES then some (.permissionDenied "Insufficient permissions.")
          else some (.unavailable "Failed to create directory.")
      | some s => some s

end FileHelpers

namespace FileHelpers

/-- C10: `Exists` returns `OkStatus` exactly when `stat` succeeds; when `stat`
fails it returns `PermissionDeniedError` for errno `EACCES` and
`NotFoundError` ("The path does not exist.") for every other errno value. -/
theorem c10_exists_status (fs : FSys) (file_name : List Char) :
    (ExistsPath fs file_name = .ok ↔ fs.stat file_name = .ok) ∧
    (∀ e, fs.stat file_name = .error e →
      ExistsPath fs file_name =
        if e = EACCES then Status.permissionDenied "Insufficient permissions."
        else Status.notFound "The path does not exist.") := by
  constructor
  · constructor
    · intro h
      unfold ExistsPath at h
      cases hs : fs.stat file_name with
      | ok => rfl
      | error e =>
        rw [hs] at h
        dsimp only at h
        split at h <;> cases h
    · intro h
      unfold ExistsPath
      rw [h]
  · intro e he
    unfold ExistsPath
    rw [he]

/-- A filesystem on which every `stat` and `mkdir` call reports `EACCES`. -/
def fsDenied : FSys := ⟨fun _ => .error EACCES, fun _ => .error EACCES⟩

/-- C10 witness: on a filesystem where `stat` reports `EACCES`, `Exists`
returns `PermissionDeniedError`. -/
theorem c10_exists_status_witness :
    ExistsPath fsDenied ['a'] = Status.permissionDenied "Insufficient permissions." := by
  have h := (c10_exists_status fsDenied ['a']).2 EACCES rfl
  simpa using h

theorem lastSlash_cons (c : Char) (cs : List Char) :
    lastSlash (c :: cs) =
      match lastSlash cs with
      | some i => some (i + 1)
      | none => if c = '/' then some 0 else none := rfl

theorem lastSlash_lt (cs : List Char) (i : Nat) (h : lastSlash cs = some i) :
    i < cs.length := by
  induction cs generalizing i with
  | nil => simp [lastSlash] at h
  | cons c cs ih =>
    rw [lastSlash_cons] at h
    cases hls : lastSlash cs with
    | some j =>
      rw [hls] at h
      simp only [Option.some.injEq] at h
      subst h
      have := ih j hls
      simp only [List.length_cons]
      omega
    | none =>
      rw [hls] at h
      by_cases hc : c = '/'
      · rw [if_pos hc] at h
        simp only [Option.some.injEq] at h
        simp only [List.length_cons]
        omega
      · rw [if_neg hc] at h
        cases h

/-- The parent prefix is strictly shorter than the path, except for the root
`"/"` (whose parent is itself) and the empty path. -/
theorem splitPathFirst_shrinks (cs : List Char) (hne : cs ≠ []) (hroot : cs ≠ ['/']) :
    (splitPathFirst cs).length < cs.length := by
  unfold splitPathFirst
  cases hls : lastSlash cs with
  | none =>
    simpa using List.length_pos.mpr hne
  | some i =>
    cases i with
    | zero =>
      cases cs with
      | nil => exact absurd rfl hne
      | cons c cs' =>
        rw [lastSlash_cons] at hls
        cases h2 : lastSlash cs' with
        | some j =>
          rw [h2] at hls
          cases hls
        | none =>
          rw [h2] at hls
          by_cases hc : c = '/'
          · subst hc
            cases cs' with
            | nil => exact absurd rfl hroot
            | cons d ds => simp
          · rw [if_neg hc] at hls
            cases hls
    | succ j =>
      have hlt := lastSlash_lt cs (j + 1) hls
      simp only [List.length_take]
      omega

/-- The root path `"/"`. -/
def rootPath : List Char := ['/']

theorem splitPathFirst_root : splitPathFirst rootPath = rootPath := by decide

/-- A filesystem on which every `stat` call fails with `ENOENT`. -/
def fsNoStat : FSys := ⟨fun _ => .error 2, fun _ => .ok⟩

/-- C9 counterexample: `RecursivelyCreateDir` is not total.  On a filesystem
where `stat` fails everywhere, the call on the root path `"/"` never returns:
`SplitPath` maps `"/"` to itself, so the parent prefix does not shrink and no
recursion depth suffices. -/
theorem c9_counterexample_root_diverges :
    ¬ ∃ fuel s, RecursivelyCreateDir fsNoStat fuel rootPath = some s := by
  have key : ∀ fuel, RecursivelyCreateDir fsNoStat fuel rootPath = none := by
    intro fuel
    induction fuel with
    | zero => rfl
    | succ f ih =>
      unfold RecursivelyCreateDir
      rw [if_neg (by decide), splitPathFirst_root, ih]
  rintro ⟨fuel, s, h⟩
  rw [key fuel] at h
  cases h

/-- C9 (amended): `RecursivelyCreateDir` terminates on every input path
whenever `stat` succeeds on the root `"/"` (any recursion depth above the
path length suffices), and it returns `OkStatus` immediately when the path is
empty or `Exists(path)` is ok; in general the recursion descends exactly once
to the parent prefix, which is strictly shorter except at `"/"`. -/
theorem c9_recursively_create_dir_total (fs : FSys)
    (hroot : fs.stat rootPath = .ok) :
    (∀ (fuel : Nat) (path : List Char), path.length < fuel →
      RecursivelyCreateDir fs fuel path ≠ none) ∧
    (∀ (fuel : Nat) (path : List Char), path = [] ∨ ExistsPath fs path = .ok →
      RecursivelyCreateDir fs (fuel + 1) path = some .ok) := by
  constructor
  · intro fuel
    induction fuel with
    | zero =>
      intro path hlen
      exact absurd hlen (Nat.not_lt_zero _)
    | succ f ih =>
      intro path hlen
      by_cases hbase : path = [] ∨ ExistsPath fs path = .ok
      · unfold RecursivelyCreateDir
        rw [if_pos hbase]
        simp
      · have hne : path ≠ [] := fun h => hbase (Or.inl h)
        have hnroot : path ≠ rootPath := by
          intro hcontra
          apply hbase
          refine Or.inr ?_
          rw [hcontra]
          unfold ExistsPath
          rw [hroot]
        have hshr := splitPathFirst_shrinks path hne hnroot
        have hih := ih (splitPathFirst path) (by omega)
        unfold RecursivelyCreateDir
        rw [if_neg hbase]
        cases hrec : RecursivelyCreateDir fs f (splitPathFirst path) with
        | none => exact absurd hrec hih
        | some s =>
          cases s with
          | ok =>
            cases fs.mkdirSys path with
            | ok => simp
            | error e =>
              dsimp only
              split <;> simp
          | permissionDenied m => simp
          | notFound m => simp
          | unavailable m => simp
  · intro fuel path hbase
    unfold RecursivelyCreateDir
    rw [if_pos hbase]

/-- A filesystem on which only the root exists and `mkdir` always succeeds. -/
def fsRootOnly : FSys :=
  ⟨fun p => if p = rootPath then .ok else .error 2, fun _ => .ok⟩

/-- C9 witness: on a filesystem whose root exists, the call on `"/a"`
terminates within fuel 5, and the call on the empty path returns ok. -/
theorem c9_recursively_create_dir_total_witness :
    RecursivelyCreateDir fsRootOnly 5 ['/', 'a'] ≠ none ∧
      RecursivelyCreateDir fsRootOnly 1 [] = some .ok :=
  ⟨(c9_recursively_create_dir_total fsRootOnly (by decide)).1 5 ['/', 'a'] (by decide),
    (c9_recursively_create_dir_total fsRootOnly (by decide)).2 0 [] (Or.inl rfl)⟩

end FileHelpers

namespace StreamModel

/-- Modelled from the spec: a Packet is an immutable value paired with a
timestamp; the engine never interprets the value, only its timestamp, so the
payload is an opaque tag.  Timestamps are the real ticks of §3, written as
plain integers. -/
structure Packet where
  ts : Int
  val : Nat
deriving DecidableEq

/-- The stream-level failure conditions of §4.2. -/
inductive StreamError where
  | orderViolation
  | closedStream
  | boundRegression
deriving DecidableEq

/-- Modelled from the spec §3: a Stream is a queue of Packets with a `closed`
flag and a `next_timestamp_bound`; `lastPushed = none` plays the role of the
`Unstarted` sentinel (nothing pushed yet) and `bound = none` means no bound
knowledge yet. -/
structure MStream where
  queue : List Packet
  closed : Bool
  lastPushed : Option Int
  bound : Option Int
deriving DecidableEq

/-- A fresh stream: empty, open, nothing pushed, no bound knowledge. -/
def MStream.init : MStream := ⟨[], false, none, none⟩

/-- Whether `t` lies strictly below a recorded optional value. -/
def belowOpt (o : Option Int) (t : Int) : Bool :=
  match o with
  | none => false
  | some l => decide (t < l)

/-- The bound after a push: the previous bound raised to the pushed
timestamp. -/
def pushBound (old : Option Int) (t : Int) : Int :=
  match old with
  | none => t
  | some b => max b t

/-- Modelled from the spec §4.2 `Push`: fails with `OrderViolation` if the
packet timestamp is below the stream's last pushed timestamp, fails with
`ClosedStream` if the stream is closed, otherwise enqueues; the bound (the
minimum timestamp of any future packet) rises to the pushed timestamp. -/
def MStream.push (s : MStream) (p : Packet) : Except StreamError MStream :=
  if belowOpt s.lastPushed p.ts then .error .orderViolation
  else if s.closed then .error .closedStream
  else .ok { s with queue := s.queue ++ [p], lastPushed := some p.ts,
                    bound := some (pushBound s.bound p.ts) }

/-- Modelled from the spec §4.2 `Close`: marks the stream closed; idempotent. -/
def MStream.close (s : MStream) : MStream := { s with closed := true }

/-- Modelled from the spec §4.2 `AdvanceBound`: fails with `BoundRegression`
if the asserted timestamp is below the current bound, otherwise records it. -/
def MStream.advanceBound (s : MStream) (t : Int) : Except StreamError MStream :=
  if belowOpt s.bound t then .error .boundRegression
  else .ok { s with bound := some t }

/-- Modelled from the spec §4.2 `Pop`: consumer-side FIFO removal. -/
def MStream.pop (s : MStream) : Option (Packet × MStream) :=
  match s.queue with
  | [] => none
  | p :: rest => some (p, { s with queue := rest })

/-- End-of-stream as observed by a reader: closed and drained. -/
def MStream.atEnd (s : MStream) : Bool := s.closed && s.queue.isEmpty

/-- The operations a producer or consumer can apply to a stream. -/
inductive StreamOp where
  | push (p : Packet)
  | close
  | advanceBound (t : Int)
  | pop
deriving DecidableEq

/-- One operation, as a fallible transition. -/
def MStream.apply (s : MStream) (op : StreamOp) : Except StreamError MStream :=
  match op with
  | .push p => s.push p
  | .close => .ok s.close
  | .advanceBound t => s.advanceBound t
  | .pop => .ok (match s.pop with
                 | none => s
                 | some (_, s') => s')

/-- One operation, keeping the state unchanged when the operation fails
(failed operations of §4.2 are rejected as local errors and mutate nothing). -/
def MStream.applyK (s : MStream) (op : StreamOp) : MStream :=
  match s.apply op with
  | .ok s' => s'
  | .error _ => s

/-- A whole run of operations. -/
def MStream.runOps (s : MStream) : List StreamOp → MStream
  | [] => s
  | op :: ops => (s.applyK op).runOps ops

end StreamModel

namespace StreamModel

theorem push_ok_iff {s : MStream} {p : Packet} {s' : MStream} :
    s.push p = .ok s' ↔
      belowOpt s.lastPushed p.ts = false ∧ s.closed = false ∧
      s' = { s with queue := s.queue ++ [p], lastPushed := some p.ts,
                    bound := some (pushBound s.bound p.ts) } := by
  unfold MStream.push
  constructor
  · intro h
    split_ifs at h with h1 h2 <;> cases h
    exact ⟨by simpa using h1, by simpa using h2, rfl⟩
  · rintro ⟨h1, h2, rfl⟩
    rw [if_neg (by simp [h1]), if_neg (by simp [h2])]

theorem advanceBound_ok_iff {s : MStream} {t : Int} {s' : MStream} :
    s.advanceBound t = .ok s' ↔
      belowOpt s.bound t = false ∧ s' = { s with bound := some t } := by
  unfold MStream.advanceBound
  constructor
  · intro h
    split_ifs at h with h1 <;> cases h
    exact ⟨by simpa using h1, rfl⟩
  · rintro ⟨h1, rfl⟩
    rw [if_neg (by simp [h1])]

/-- The ordering invariant of §3: queued packets are non-decreasing in
timestamp and all of them are at or below the last pushed timestamp. -/
def StreamInv (s : MStream) : Prop :=
  (s.queue.map Packet.ts).Pairwise (· ≤ ·) ∧
  ∀ p ∈ s.queue, ∃ l, s.lastPushed = some l ∧ p.ts ≤ l

theorem streamInv_init : StreamInv MStream.init := by
  constructor <;> simp [MStream.init]

theorem streamInv_push {s : MStream} {p : Packet} {s' : MStream}
    (h : s.push p = .ok s') (hinv : StreamInv s) : StreamInv s' := by
  obtain ⟨h1, _h2, rfl⟩ := push_ok_iff.mp h
  obtain ⟨hsort, hbd⟩ := hinv
  constructor
  · simp only [List.map_append, List.map_cons, List.map_nil]
    rw [List.pairwise_append]
    refine ⟨hsort, by simp, ?_⟩
    intro a ha b hb
    simp only [List.mem_singleton] at hb
    subst hb
    simp only [List.mem_map] at ha
    obtain ⟨q, hq, rfl⟩ := ha
    obtain ⟨l, hl, hle⟩ := hbd q hq
    rw [hl] at h1
    simp only [belowOpt, decide_eq_false_iff_not, not_lt] at h1
    omega
  · intro q hq
    simp only [List.mem_append, List.mem_singleton] at hq
    rcases hq with hq | rfl
    · obtain ⟨l, hl, hle⟩ := hbd q hq
      refine ⟨p.ts, rfl, ?_⟩
      rw [hl] at h1
      simp only [belowOpt, decide_eq_false_iff_not, not_lt] at h1
      omega
    · exact ⟨_, rfl, le_refl _⟩

theorem streamInv_apply {s : MStream} {op : StreamOp} {s' : MStream}
    (h : s.apply op = .ok s') (hinv : StreamInv s) : StreamInv s' := by
  cases op with
  | push p => exact streamInv_push h hinv
  | close =>
    simp only [MStream.apply, Except.ok.injEq] at h
    subst h
    exact hinv
  | advanceBound t =>
    simp only [MStream.apply] at h
    obtain ⟨_, rfl⟩ := advanceBound_ok_iff.mp h
    exact hinv
  | pop =>
    simp only [MStream.apply, Except.ok.injEq] at h
    subst h
    cases hq : s.queue with
    | nil =>
      simp only [MStream.pop, hq]
      exact hinv
    | cons p rest =>
      simp only [MStream.pop, hq]
      obtain ⟨hsort, hbd⟩ := hinv
      rw [hq] at hsort hbd
      constructor
      · simp only [List.map_cons] at hsort
        exact hsort.of_cons
      · intro q hqmem
        exact hbd q (List.mem_cons_of_mem p hqmem)

/-- Bound monotonicity across any single successful operation. -/
theorem apply_bound_mono {s : MStream} {op : StreamOp} {s' : MStream}
    (h : s.apply op = .ok s') (b : Int) (hb : s.bound = some b) :
    ∃ b', s'.bound = some b' ∧ b ≤ b' := by
  cases op with
  | push p =>
    obtain ⟨_, _, rfl⟩ := push_ok_iff.mp h
    refine ⟨pushBound s.bound p.ts, rfl, ?_⟩
    rw [hb]
    simp only [pushBound]
    exact le_max_left _ _
  | close =>
    simp only [MStream.apply, Except.ok.injEq] at h
    subst h
    exact ⟨b, hb, le_refl _⟩
  | advanceBound t =>
    simp only [MStream.apply] at h
    obtain ⟨h1, rfl⟩ := advanceBound_ok_iff.mp h
    rw [hb] at h1
    simp only [belowOpt, decide_eq_false_iff_not, not_lt] at h1
    exact ⟨t, rfl, h1⟩
  | pop =>
    simp only [MStream.apply, Except.ok.injEq] at h
    subst h
    cases hq : s.queue with
    | nil => exact ⟨b, by simpa [MStream.pop, hq] using hb, le_refl _⟩
    | cons p rest => exact ⟨b, by simpa [MStream.pop, hq] using hb, le_refl _⟩

end StreamModel

namespace StreamModel

/-- C5: `Close()` is idempotent — closing an already-closed Stream is a no-op
and not an error — and the closed state is terminal: every successful
operation keeps a closed Stream closed, and once closed and drained readers
observe end-of-stream permanently. -/
theorem c5_close_idempotent_terminal :
    (∀ s : MStream, s.close.close = s.close) ∧
    (∀ s : MStream, s.closed = true → s.close = s) ∧
    (∀ (s : MStream) (op : StreamOp) (s' : MStream),
      s.apply op = .ok s' → s.closed = true → s'.closed = true) ∧
    (∀ (s : MStream) (op : StreamOp) (s' : MStream),
      s.apply op = .ok s' → s.atEnd = true → s'.atEnd = true ∧ s'.pop = none) := by
  refine ⟨fun s => rfl, ?_, ?_, ?_⟩
  · intro s h
    cases s with
    | mk q c l b =>
      simp only at h
      subst h
      rfl
  · intro s op s' h hc
    cases op with
    | push p =>
      obtain ⟨_, h2, _⟩ := push_ok_iff.mp h
      rw [hc] at h2
      cases h2
    | close =>
      simp only [MStream.apply, Except.ok.injEq] at h
      subst h
      rfl
    | advanceBound t =>
      simp only [MStream.apply] at h
      obtain ⟨_, rfl⟩ := advanceBound_ok_iff.mp h
      exact hc
    | pop =>
      simp only [MStream.apply, Except.ok.injEq] at h
      subst h
      cases hq : s.queue with
      | nil => simpa [MStream.pop, hq] using hc
      | cons p rest => simpa [MStream.pop, hq] using hc
  · intro s op s' h hae
    simp only [MStream.atEnd, Bool.and_eq_true, List.isEmpty_iff] at hae
    obtain ⟨hc, hq⟩ := hae
    cases op with
    | push p =>
      obtain ⟨_, h2, _⟩ := push_ok_iff.mp h
      rw [hc] at h2
      cases h2
    | close =>
      simp only [MStream.apply, Except.ok.injEq] at h
      subst h
      constructor
      · simp [MStream.atEnd, MStream.close, hq]
      · simp [MStream.pop, MStream.close, hq]
    | advanceBound t =>
      simp only [MStream.apply] at h
      obtain ⟨_, rfl⟩ := advanceBound_ok_iff.mp h
      constructor
      · simp [MStream.atEnd, hc, hq]
      · simp [MStream.pop, hq]
    | pop =>
      simp only [MStream.apply, Except.ok.injEq] at h
      subst h
      constructor
      · simp [MStream.pop, MStream.atEnd, hq, hc]
      · simp [MStream.pop, hq]

/-- A concrete closed and drained stream used by witnesses. -/
def sClosed : MStream := ⟨[], true, some 3, some 3⟩

/-- C5 witness: the statement evaluated at a concrete closed drained stream,
for the `close` and `pop` operations. -/
theorem c5_close_idempotent_terminal_witness :
    sClosed.close = sClosed ∧
      (sClosed.close.closed = true) ∧
      (sClosed.atEnd = true ∧ sClosed.pop = none) := by
  refine ⟨c5_close_idempotent_terminal.2.1 sClosed rfl, ?_, ?_⟩
  · exact c5_close_idempotent_terminal.2.2.1 sClosed .close sClosed.close rfl rfl
  · have h := c5_close_idempotent_terminal.2.2.2 sClosed .pop sClosed rfl rfl
    exact ⟨h.1, h.2⟩

/-- C6: `AdvanceBound` below the current bound fails with `BoundRegression`;
successful calls record exactly the asserted timestamp, which is at or above
the previous bound, so along any run of operations the stream's
`next_timestamp_bound` never decreases. -/
theorem c6_advance_bound_monotone :
    (∀ (s : MStream) (t b : Int), s.bound = some b → t < b →
      s.advanceBound t = .error .boundRegression) ∧
    (∀ (s : MStream) (t : Int) (s' : MStream), s.advanceBound t = .ok s' →
      s'.bound = some t ∧ ∀ b, s.bound = some b → b ≤ t) ∧
    (∀ (s : MStream) (op : StreamOp) (s' : MStream), s.apply op = .ok s' →
      ∀ b, s.bound = some b → ∃ b', s'.bound = some b' ∧ b ≤ b') ∧
    (∀ (s : MStream) (ops : List StreamOp) (b : Int), s.bound = some b →
      ∃ b', (s.runOps ops).bound = some b' ∧ b ≤ b') := by
  refine ⟨?_, ?_, fun s op s' h b hb => apply_bound_mono h b hb, ?_⟩
  · intro s t b hb hlt
    unfold MStream.advanceBound
    rw [if_pos (by simp [belowOpt, hb, hlt])]
  · intro s t s' h
    obtain ⟨h1, rfl⟩ := advanceBound_ok_iff.mp h
    refine ⟨rfl, ?_⟩
    intro b hb
    rw [hb] at h1
    simp only [belowOpt, decide_eq_false_iff_not, not_lt] at h1
    exact h1
  · intro s ops
    induction ops generalizing s with
    | nil => intro b hb; exact ⟨b, hb, le_refl _⟩
    | cons op ops ih =>
      intro b hb
      simp only [MStream.runOps]
      cases hap : s.apply op with
      | ok s1 =>
        have hstep := apply_bound_mono hap b hb
        obtain ⟨b1, hb1, hle1⟩ := hstep
        have hrest := ih (s.applyK op) b1 (by simp [MStream.applyK, hap, hb1])
        obtain ⟨b2, hb2, hle2⟩ := hrest
        exact ⟨b2, hb2, le_trans hle1 hle2⟩
      | error e =>
        have hrest := ih (s.applyK op) b (by simp [MStream.applyK, hap, hb])
        exact hrest

/-- A concrete stream with bound 5 used by witnesses. -/
def sBound5 : MStream := ⟨[], false, none, some 5⟩

/-- C6 witness: at a stream whose bound is 5, advancing to 3 fails with
`BoundRegression`, advancing to 7 records bound 7, and a run of operations
keeps the bound at or above 5. -/
theorem c6_advance_bound_monotone_witness :
    sBound5.advanceBound 3 = .error .boundRegression ∧
      (∃ s', sBound5.advanceBound 7 = .ok s' ∧ s'.bound = some 7) ∧
      (∃ b', (sBound5.runOps [.advanceBound 7, .close]).bound = some b' ∧ 5 ≤ b') := by
  refine ⟨c6_advance_bound_monotone.1 sBound5 3 5 rfl (by decide), ?_, ?_⟩
  · exact ⟨_, rfl, (c6_advance_bound_monotone.2.1 sBound5 7 _ rfl).1⟩
  · exact c6_advance_bound_monotone.2.2.2 sBound5 [.advanceBound 7, .close] 5 rfl

/-- Remove the head packet if there is one (the state part of `Pop`). -/
def MStream.popHead (s : MStream) : MStream :=
  match s.pop with
  | none => s
  | some (_, s') => s'

end StreamModel

namespace Engine

open StreamModel

/-- Node identifiers. -/
abbrev NodeId := Nat

/-- Stream identifiers. -/
abbrev StreamId := Nat

/-- Modelled from the spec §4.5: the static topology — the set of nodes and
the input/output streams bound to each node's ports. -/
structure Topology where
  nodeIds : List NodeId
  inputsOf : NodeId → List StreamId
  outputsOf : NodeId → List StreamId

/-- The consumer nodes of a stream: every node having it among its inputs. -/
def Topology.consumersOf (top : Topology) (sid : StreamId) : List NodeId :=
  top.nodeIds.filter (fun n => decide (sid ∈ top.inputsOf n))

/-- The part of the node lifecycle the scheduler-level claims depend on:
`opened` covers `Opened/Running/Idle` (running-ness is tracked by the
scheduler's running list), `closed` is the terminal state. -/
inductive NodeState where
  | opened
  | closed
deriving DecidableEq

/-- Kinds of fatal errors of §7. -/
inductive ErrKind where
  | orderViolation
  | closedStream
  | boundRegression
  | nodeError
deriving DecidableEq

/-- The error kind corresponding to a stream-level failure. -/
def errKindOf : StreamError → ErrKind
  | .orderViolation => .orderViolation
  | .closedStream => .closedStream
  | .boundRegression => .boundRegression

/-- A fatal error record, carrying the context §7 requires: the offending
node (if any), stream and timestamp. -/
structure EngErr where
  kind : ErrKind
  node : Option NodeId
  stream : Option StreamId
  ts : Option Int
deriving DecidableEq

/-- Modelled from the spec §4.5/§4.6: the dynamic engine state — all stream
states, node lifecycle states, the FIFO ready queue, the set of in-flight
(running) nodes, the first fatal error, and the append-only log of delivered
packets. -/
structure EState where
  streams : StreamId → MStream
  nodeSt : NodeId → NodeState
  ready : List NodeId
  running : List NodeId
  err : Option EngErr
  outLog : List (StreamId × Packet)

/-- Idempotent enqueue of §4.6: a node already queued, already running or
already closed is not re-queued. -/
def enqueue1 (st : EState) (n : NodeId) : EState :=
  if n ∈ st.ready ∨ n ∈ st.running ∨ st.nodeSt n = .closed then st
  else { st with ready := st.ready ++ [n] }

/-- Enqueue every node of a list (the notified consumers of a stream). -/
def enqueueConsumers (st : EState) : List NodeId → EState
  | [] => st
  | n :: ns => enqueueConsumers (enqueue1 st n) ns

/-- Close every stream in a list (a closing node closes all its outputs). -/
def closeStreams (f : StreamId → MStream) : List StreamId → StreamId → MStream
  | [] => f
  | sid :: sids => closeStreams (Function.update f sid (f sid).close) sids

/-- Modelled from the spec §4.5/§4.6/§5: one engine transition.  Stream
mutations notify (enqueue) the consumers; a failed mutation records the first
fatal error and notifies nobody; after an error no new work is scheduled but
running nodes may finish. -/
inductive Step (top : Topology) : EState → EState → Prop where
  | pushOk (sid : StreamId) (p : Packet) (st : EState) (s' : MStream) :
      st.err = none →
      (st.streams sid).push p = .ok s' →
      Step top st (enqueueConsumers
        { st with streams := Function.update st.streams sid s',
                  outLog := st.outLog ++ [(sid, p)] }
        (top.consumersOf sid))
  | pushErr (sid : StreamId) (p : Packet) (st : EState) (e : StreamError) :
      st.err = none →
      (st.streams sid).push p = .error e →
      Step top st { st with err := some ⟨errKindOf e, none, some sid, some p.ts⟩ }
  | advOk (sid : StreamId) (t : Int) (st : EState) (s' : MStream) :
      st.err = none →
      (st.streams sid).advanceBound t = .ok s' →
      Step top st (enqueueConsumers
        { st with streams := Function.update st.streams sid s' }
        (top.consumersOf sid))
  | advErr (sid : StreamId) (t : Int) (st : EState) (e : StreamError) :
      st.err = none →
      (st.streams sid).advanceBound t = .error e →
      Step top st { st with err := some ⟨errKindOf e, none, some sid, some t⟩ }
  | closeStream (sid : StreamId) (st : EState) :
      st.err = none →
      Step top st (enqueueConsumers
        { st with streams := Function.update st.streams sid (st.streams sid).close }
        (top.consumersOf sid))
  | startRun (n : NodeId) (ns : List NodeId) (st : EState) :
      st.err = none →
      st.ready = n :: ns →
      Step top st { st with ready := ns, running := st.running ++ [n] }
  | finishRun (n : NodeId) (st : EState) :
      n ∈ st.running →
      Step top st { st with running := st.running.erase n }
  | emitOk (n : NodeId) (sid : StreamId) (p : Packet) (st : EState) (s' : MStream) :
      st.err = none →
      n ∈ st.running →
      sid ∈ top.outputsOf n →
      (st.streams sid).push p = .ok s' →
      Step top st (enqueueConsumers
        { st with streams := Function.update st.streams sid s',
                  outLog := st.outLog ++ [(sid, p)] }
        (top.consumersOf sid))
  | emitErr (n : NodeId) (sid : StreamId) (p : Packet) (st : EState) (e : StreamError) :
      st.err = none →
      n ∈ st.running →
      sid ∈ top.outputsOf n →
      (st.streams sid).push p = .error e →
      Step top st { st with err := some ⟨errKindOf e, some n, some sid, some p.ts⟩ }
  | consume (n : NodeId) (sid : StreamId) (st : EState) :
      st.err = none →
      n ∈ st.running →
      sid ∈ top.inputsOf n →
      Step top st { st with streams :=
                      Function.update st.streams sid (st.streams sid).popHead }
  | closeNode (n : NodeId) (st : EState) :
      st.err = none →
      st.nodeSt n = .opened →
      n ∉ st.running →
      n ∉ st.ready →
      (∀ sid ∈ top.inputsOf n, (st.streams sid).atEnd = true) →
      Step top st { st with nodeSt := Function.update st.nodeSt n .closed,
                            streams := closeStreams st.streams (top.outputsOf n) }

/-- The initial state: fresh open streams, opened nodes, nothing scheduled,
no error, no output. -/
def initState : EState :=
  ⟨fun _ => MStream.init, fun _ => .opened, [], [], none, []⟩

/-- States reachable from the initial state. -/
def Reachable (top : Topology) (st : EState) : Prop :=
  Relation.ReflTransGen (Step top) initState st

end Engine

namespace Engine

open StreamModel

theorem enqueue1_fields (st : EState) (n : NodeId) :
    (enqueue1 st n).running = st.running ∧ (enqueue1 st n).streams = st.streams ∧
    (enqueue1 st n).nodeSt = st.nodeSt ∧ (enqueue1 st n).err = st.err ∧
    (enqueue1 st n).outLog = st.outLog := by
  unfold enqueue1
  split <;> exact ⟨rfl, rfl, rfl, rfl, rfl⟩

theorem enqueueConsumers_fields : ∀ (ns : List NodeId) (st : EState),
    (enqueueConsumers st ns).running = st.running ∧
    (enqueueConsumers st ns).streams = st.streams ∧
    (enqueueConsumers st ns).nodeSt = st.nodeSt ∧
    (enqueueConsumers st ns).err = st.err ∧
    (enqueueConsumers st ns).outLog = st.outLog := by
  intro ns
  induction ns with
  | nil => intro st; exact ⟨rfl, rfl, rfl, rfl, rfl⟩
  | cons n ns ih =>
    intro st
    have h1 := enqueue1_fields st n
    have h2 := ih (enqueue1 st n)
    exact ⟨h2.1.trans h1.1, h2.2.1.trans h1.2.1, h2.2.2.1.trans h1.2.2.1,
      h2.2.2.2.1.trans h1.2.2.2.1, h2.2.2.2.2.trans h1.2.2.2.2⟩

/-- The scheduler well-formedness invariant: no node appears twice across the
ready queue and the in-flight set. -/
def WF (st : EState) : Prop := (st.ready ++ st.running).Nodup

theorem enqueue1_wf {st : EState} (n : NodeId) (h : WF st) : WF (enqueue1 st n) := by
  unfold WF enqueue1 at *
  split
  · exact h
  · rename_i hc
    push_neg at hc
    show ((st.ready ++ [n]) ++ st.running).Nodup
    rw [List.append_assoc, List.singleton_append]
    rw [List.nodup_middle]
    refine List.Nodup.cons ?_ h
    intro hmem
    rw [List.mem_append] at hmem
    rcases hmem with hm | hm
    · exact hc.1 hm
    · exact hc.2.1 hm

theorem enqueueConsumers_wf : ∀ (ns : List NodeId) (st : EState),
    WF st → WF (enqueueConsumers st ns) := by
  intro ns
  induction ns with
  | nil => intro st h; exact h
  | cons n ns ih => intro st h; exact ih _ (enqueue1_wf n h)

theorem step_wf {top : Topology} {st st' : EState} (h : Step top st st')
    (hwf : WF st) : WF st' := by
  cases h with
  | pushOk sid p st s' he hp => exact enqueueConsumers_wf _ _ hwf
  | pushErr sid p st e he hp => exact hwf
  | advOk sid t st s' he hp => exact enqueueConsumers_wf _ _ hwf
  | advErr sid t st e he hp => exact hwf
  | closeStream sid st he => exact enqueueConsumers_wf _ _ hwf
  | startRun n ns st he hr =>
    have h0 : (st.ready ++ st.running).Nodup := hwf
    rw [hr] at h0
    have h1 : List.Nodup (n :: (ns ++ st.running)) := by simpa using h0
    show List.Nodup (ns ++ (st.running ++ [n]))
    have hp : List.Perm (n :: (ns ++ st.running)) (ns ++ (st.running ++ [n])) := by
      rw [← List.append_assoc]
      exact (List.perm_append_singleton _ _).symm
    exact hp.nodup h1
  | finishRun n st hm =>
    exact List.Nodup.sublist
      (List.Sublist.append_left (List.erase_sublist n st.running) st.ready) hwf
  | emitOk n sid p st s' he hrun hout hp => exact enqueueConsumers_wf _ _ hwf
  | emitErr n sid p st e he hrun hout hp => exact hwf
  | consume n sid st he hrun hin => exact hwf
  | closeNode n st he ho hnr hnq hae => exact hwf

theorem reachable_wf {top : Topology} {st : EState} (h : Reachable top st) :
    WF st := by
  induction h with
  | refl => simp [WF, initState]
  | tail hr hs ih => exact step_wf hs ih

/-- Every step taken from an errored state (only a running node finishing)
changes neither the ready queue nor the recorded error; steps that record an
error also leave the ready queue untouched. -/
theorem step_err_frozen {top : Topology} {st st' : EState} (h : Step top st st')
    (he : st.err ≠ none) : st'.ready = st.ready ∧ st'.err = st.err := by
  cases h with
  | pushOk sid p st s' he' hp => exact absurd he' he
  | pushErr sid p st e he' hp => exact absurd he' he
  | advOk sid t st s' he' hp => exact absurd he' he
  | advErr sid t st e he' hp => exact absurd he' he
  | closeStream sid st he' => exact absurd he' he
  | startRun n ns st he' hr => exact absurd he' he
  | finishRun n st hm => exact ⟨rfl, rfl⟩
  | emitOk n sid p st s' he' hrun hout hp => exact absurd he' he
  | emitErr n sid p st e he' hrun hout hp => exact absurd he' he
  | consume n sid st he' hrun hin => exact absurd he' he
  | closeNode n st he' ho hnr hnq hae => exact absurd he' he

theorem reaches_err_frozen {top : Topology} {st st' : EState}
    (h : Relation.ReflTransGen (Step top) st st') (he : st.err ≠ none) :
    st'.ready = st.ready ∧ st'.err = st.err := by
  induction h with
  | refl => exact ⟨rfl, rfl⟩
  | tail h1 hstep ih =>
    obtain ⟨hr, herr⟩ := ih
    have h2 := step_err_frozen hstep (by rw [herr]; exact he)
    exact ⟨h2.1.trans hr, h2.2.trans herr⟩

/-- A step that records an error leaves the ready queue untouched: nobody is
notified or newly scheduled by a failed mutation. -/
theorem step_to_err_ready {top : Topology} {st st' : EState} (h : Step top st st')
    (he : st.err = none) (he' : st'.err ≠ none) : st'.ready = st.ready := by
  cases h with
  | pushOk sid p st s' _ hp =>
    refine absurd ?_ he'
    exact ((enqueueConsumers_fields _ _).2.2.2.1).trans he
  | pushErr sid p st e _ hp => rfl
  | advOk sid t st s' _ hp =>
    refine absurd ?_ he'
    exact ((enqueueConsumers_fields _ _).2.2.2.1).trans he
  | advErr sid t st e _ hp => rfl
  | closeStream sid st _ =>
    refine absurd ?_ he'
    exact ((enqueueConsumers_fields _ _).2.2.2.1).trans he
  | startRun n ns st _ hr => exact absurd he he'
  | finishRun n st hm => exact absurd he he'
  | emitOk n sid p st s' _ hrun hout hp =>
    refine absurd ?_ he'
    exact ((enqueueConsumers_fields _ _).2.2.2.1).trans he
  | emitErr n sid p st e _ hrun hout hp => rfl
  | consume n sid st _ hrun hin => exact absurd he he'
  | closeNode n st _ ho hnr hnq hae => exact absurd he he'

end Engine

namespace Engine

open StreamModel

/-- Every stream of the engine satisfies the ordering invariant. -/
def SInv (st : EState) : Prop := ∀ sid, StreamInv (st.streams sid)

theorem closeStreams_sinv : ∀ (sids : List StreamId) (f : StreamId → MStream),
    (∀ sid, StreamInv (f sid)) → ∀ sid, StreamInv (closeStreams f sids sid) := by
  intro sids
  induction sids with
  | nil => intro f hf sid; exact hf sid
  | cons s0 rest ih =>
    intro f hf sid
    apply ih
    intro sid'
    by_cases hcase : sid' = s0
    · subst hcase
      rw [Function.update_same]
      exact hf sid'
    · rw [Function.update_noteq hcase]
      exact hf sid'

theorem update_sinv {st : EState} {sid : StreamId} {s' : MStream}
    (hs : SInv st) (h : StreamInv s') :
    ∀ sid', StreamInv (Function.update st.streams sid s' sid') := by
  intro sid'
  by_cases hcase : sid' = sid
  · subst hcase
    rw [Function.update_same]
    exact h
  · rw [Function.update_noteq hcase]
    exact hs sid'

theorem step_sinv {top : Topology} {st st' : EState} (h : Step top st st')
    (hs : SInv st) : SInv st' := by
  cases h with
  | pushOk sid p st s' he hp =>
    intro sid'
    rw [(enqueueConsumers_fields _ _).2.1]
    exact update_sinv hs (streamInv_push hp (hs sid)) sid'
  | pushErr sid p st e he hp => exact hs
  | advOk sid t st s' he hp =>
    intro sid'
    rw [(enqueueConsumers_fields _ _).2.1]
    have h' : (st.streams sid).apply (.advanceBound t) = .ok s' := hp
    exact update_sinv hs (streamInv_apply h' (hs sid)) sid'
  | advErr sid t st e he hp => exact hs
  | closeStream sid st he =>
    intro sid'
    rw [(enqueueConsumers_fields _ _).2.1]
    have h' : (st.streams sid).apply .close = .ok (st.streams sid).close := rfl
    exact update_sinv hs (streamInv_apply h' (hs sid)) sid'
  | startRun n ns st he hr => exact hs
  | finishRun n st hm => exact hs
  | emitOk n sid p st s' he hrun hout hp =>
    intro sid'
    rw [(enqueueConsumers_fields _ _).2.1]
    exact update_sinv hs (streamInv_push hp (hs sid)) sid'
  | emitErr n sid p st e he hrun hout hp => exact hs
  | consume n sid st he hrun hin =>
    intro sid'
    have h' : (st.streams sid).apply .pop = .ok (st.streams sid).popHead := rfl
    exact update_sinv hs (streamInv_apply h' (hs sid)) sid'
  | closeNode n st he ho hnr hnq hae =>
    intro sid'
    exact closeStreams_sinv (top.outputsOf n) st.streams hs sid'

theorem reachable_sinv {top : Topology} {st : EState} (h : Reachable top st) :
    SInv st := by
  induction h with
  | refl => intro sid; exact streamInv_init
  | tail hr hstep ih => exact step_sinv hstep ih

end Engine

namespace Engine

open StreamModel

/-- C1: on every reachable engine state each stream's queue is non-decreasing
in timestamp (so every consumer observes non-decreasing timestamps); `Push`
below the last pushed timestamp fails with `OrderViolation`; a step that
records such a failure schedules nobody (the ready queue is unchanged), and
from an errored state the ready queue never grows again. -/
theorem c1_stream_order_enforced :
    (∀ (top : Topology) (st : EState), Reachable top st →
      ∀ sid, ((st.streams sid).queue.map Packet.ts).Pairwise (· ≤ ·)) ∧
    (∀ (s : MStream) (p : Packet) (l : Int), s.lastPushed = some l → p.ts < l →
      s.push p = .error .orderViolation) ∧
    (∀ (top : Topology) (st st' : EState), Step top st st' →
      st.err = none → st'.err ≠ none → st'.ready = st.ready) ∧
    (∀ (top : Topology) (st st' : EState),
      Relation.ReflTransGen (Step top) st st' → st.err ≠ none →
      st'.ready = st.ready) := by
  refine ⟨?_, ?_, ?_, ?_⟩
  · intro top st h sid
    exact (reachable_sinv h sid).1
  · intro s p l hl hlt
    unfold MStream.push
    rw [if_pos (by simp [belowOpt, hl, hlt])]
  · intro top st st' h he he'
    exact step_to_err_ready h he he'
  · intro top st st' h he
    exact (reaches_err_frozen h he).1

/-- A trivial topology used by witnesses. -/
def topW : Topology := ⟨[], fun _ => [], fun _ => []⟩

/-- The packet of timestamp 3 from Scenario C. -/
def pkt3 : Packet := ⟨3, 0⟩

/-- The packet of timestamp 2 from Scenario C. -/
def pkt2 : Packet := ⟨2, 0⟩

/-- A stream that has already accepted the packet of timestamp 3. -/
def s3 : MStream := ⟨[pkt3], false, some 3, some 3⟩

/-- An engine state whose stream 0 has already accepted timestamp 3. -/
def stWith3 : EState :=
  ⟨Function.update (fun _ => MStream.init) 0 s3, fun _ => .opened, [], [], none, []⟩

/-- C1 witness (Scenario C): after accepting timestamp 3, pushing timestamp 2
fails with `OrderViolation` and the failing step leaves the ready queue
unchanged; queues of the initial state are trivially ordered. -/
theorem c1_stream_order_enforced_witness :
    ((initState.streams 0).queue.map Packet.ts).Pairwise (· ≤ ·) ∧
      s3.push pkt2 = .error .orderViolation ∧
      EState.ready { stWith3 with
        err := some ⟨errKindOf .orderViolation, none, some 0, some pkt2.ts⟩ } =
        stWith3.ready :=
  ⟨c1_stream_order_enforced.1 topW initState Relation.ReflTransGen.refl 0,
   c1_stream_order_enforced.2.1 s3 pkt2 3 rfl (by decide),
   c1_stream_order_enforced.2.2.1 topW stWith3 _
     (Step.pushErr 0 pkt2 stWith3 .orderViolation rfl rfl) rfl (by simp)⟩

/-- A two-node topology with disjoint input streams, used to exhibit
concurrency: node `n` consumes stream `n`, no outputs. -/
def topPair : Topology := ⟨[0, 1], fun n => [n], fun _ => []⟩

/-- The packet of timestamp 0 used to make both nodes ready. -/
def pkt0 : Packet := ⟨0, 0⟩

/-- C4: on every reachable state no node occurs twice across the ready queue
and the in-flight set — a node instance never has two concurrent `Process`
invocations — while two distinct nodes sharing no stream can both be
in flight at once (witnessed by a reachable state of `topPair`). -/
theorem c4_per_node_exclusive_concurrent :
    (∀ (top : Topology) (st : EState), Reachable top st →
      (st.ready ++ st.running).Nodup ∧ ∀ n, st.running.count n ≤ 1) ∧
    (∃ st : EState, Reachable topPair st ∧
      0 ∈ st.running ∧ 1 ∈ st.running ∧ (0 : NodeId) ≠ 1) := by
  constructor
  · intro top st h
    have hwf := reachable_wf h
    refine ⟨hwf, ?_⟩
    have hrun : st.running.Nodup := ((List.nodup_append.mp hwf).2.1)
    exact fun n => List.nodup_iff_count_le_one.mp hrun n
  · refine ⟨_, Relation.ReflTransGen.tail (Relation.ReflTransGen.tail
      (Relation.ReflTransGen.tail (Relation.ReflTransGen.tail
        Relation.ReflTransGen.refl
        (Step.pushOk 0 pkt0 initState _ rfl rfl))
        (Step.pushOk 1 pkt0 _ _ rfl rfl))
        (Step.startRun 0 [1] _ rfl (by decide)))
        (Step.startRun 1 [] _ rfl (by decide)), by decide, by decide, by decide⟩

/-- C4 witness: the mutual-exclusion bound evaluated at the initial state. -/
theorem c4_per_node_exclusive_concurrent_witness :
    (initState.ready ++ initState.running).Nodup ∧
      ∀ n, initState.running.count n ≤ 1 :=
  c4_per_node_exclusive_concurrent.1 topW initState Relation.ReflTransGen.refl

end Engine

namespace Engine

open StreamModel

/-- Modelled from the spec §4.5/§4.6: the completion condition `WaitUntilDone`
waits for — every node closed, nothing queued and nothing in flight. -/
def allDone (top : Topology) (st : EState) : Prop :=
  (∀ n ∈ top.nodeIds, st.nodeSt n = .closed) ∧ st.ready = [] ∧ st.running = []

instance (top : Topology) (st : EState) : Decidable (allDone top st) := by
  unfold allDone; infer_instance

/-- Modelled from the spec §4.5/§7: the value `WaitUntilDone` reports once the
run has completed — success, or the first recorded fatal error (which carries
node, stream and timestamp context in `EngErr`). -/
def waitUntilDone (st : EState) : Except EngErr Unit :=
  match st.err with
  | some e => .error e
  | none => .ok ()

theorem step_outLog_mono {top : Topology} {st st' : EState} (h : Step top st st') :
    ∃ t, st'.outLog = st.outLog ++ t := by
  cases h with
  | pushOk sid p st s' he hp =>
    exact ⟨[(sid, p)], (enqueueConsumers_fields _ _).2.2.2.2⟩
  | pushErr sid p st e he hp => exact ⟨[], by simp⟩
  | advOk sid t st s' he hp =>
    exact ⟨[], by rw [(enqueueConsumers_fields _ _).2.2.2.2]; simp⟩
  | advErr sid t st e he hp => exact ⟨[], by simp⟩
  | closeStream sid st he =>
    exact ⟨[], by rw [(enqueueConsumers_fields _ _).2.2.2.2]; simp⟩
  | startRun n ns st he hr => exact ⟨[], by simp⟩
  | finishRun n st hm => exact ⟨[], by simp⟩
  | emitOk n sid p st s' he hrun hout hp =>
    exact ⟨[(sid, p)], (enqueueConsumers_fields _ _).2.2.2.2⟩
  | emitErr n sid p st e he hrun hout hp => exact ⟨[], by simp⟩
  | consume n sid st he hrun hin => exact ⟨[], by simp⟩
  | closeNode n st he ho hnr hnq hae => exact ⟨[], by simp⟩

/-- A one-node topology: node 0 consumes the externally fed stream 0 and has
no outputs. -/
def topSingle : Topology := ⟨[0], fun _ => [0], fun _ => []⟩

/-- C3: delivered output is append-only along every run (partial output
emitted before an error remains valid and delivered); once a first fatal
error is recorded every later state still reports exactly that error through
`WaitUntilDone`; and on the fault-free one-node graph, closing the externally
fed input stream leads to a reachable state where every node is closed, all
streams are at end-of-stream, and `WaitUntilDone` returns success. -/
theorem c3_wait_until_done :
    (∀ (top : Topology) (st st' : EState),
      Relation.ReflTransGen (Step top) st st' → ∃ t, st'.outLog = st.outLog ++ t) ∧
    (∀ (top : Topology) (st st' : EState) (e : EngErr),
      Relation.ReflTransGen (Step top) st st' → st.err = some e →
      st'.err = some e ∧ waitUntilDone st' = .error e) ∧
    (∃ st : EState, Reachable topSingle st ∧ allDone topSingle st ∧
      (∀ sid ∈ topSingle.inputsOf 0, (st.streams sid).atEnd = true) ∧
      waitUntilDone st = .ok ()) := by
  refine ⟨?_, ?_, ?_⟩
  · intro top st st' h
    induction h with
    | refl => exact ⟨[], by simp⟩
    | tail h1 hstep ih =>
      obtain ⟨t1, ht1⟩ := ih
      obtain ⟨t2, ht2⟩ := step_outLog_mono hstep
      exact ⟨t1 ++ t2, by rw [ht2, ht1, List.append_assoc]⟩
  · intro top st st' e h he
    have hfr := reaches_err_frozen h (by rw [he]; simp)
    have herr : st'.err = some e := hfr.2.trans he
    refine ⟨herr, ?_⟩
    unfold waitUntilDone
    rw [herr]
  · refine ⟨_, Relation.ReflTransGen.tail (Relation.ReflTransGen.tail
      (Relation.ReflTransGen.tail (Relation.ReflTransGen.tail
        Relation.ReflTransGen.refl
        (Step.closeStream 0 initState rfl))
        (Step.startRun 0 [] _ rfl (by decide)))
        (Step.finishRun 0 _ (by decide)))
        (Step.closeNode 0 _ rfl rfl (by decide) (by decide) (by decide)),
      by decide, by decide, rfl⟩

/-- A recorded first error used by the C3 witness. -/
def errW : EngErr := ⟨.orderViolation, none, some 0, some 2⟩

/-- An engine state carrying the recorded first error `errW`. -/
def stErr0 : EState := ⟨fun _ => MStream.init, fun _ => .opened, [], [], some errW, []⟩

/-- C3 witness: the append-only and first-error parts applied at concrete
states (the trivial run from the initial state, and an errored state). -/
theorem c3_wait_until_done_witness :
    (∃ t, initState.outLog = initState.outLog ++ t) ∧
      (stErr0.err = some errW ∧ waitUntilDone stErr0 = .error errW) :=
  ⟨c3_wait_until_done.1 topW initState initState Relation.ReflTransGen.refl,
   c3_wait_until_done.2.1 topW stErr0 stErr0 errW Relation.ReflTransGen.refl rfl⟩

end Engine

namespace SyncPolicy

/-- Modelled from the spec §4.3: the view a node's input policy has of one
input stream — pending packet timestamps in arrival order, the stream's
advanced bound, and whether the stream is closed. -/
structure InView where
  pending : List Int
  bound : Option Int
  closed : Bool
deriving DecidableEq

/-- Modelled from the spec §4.3: the synchronized-min-timestamp policy state
of one node — the input views, the aligned timestamps `Process` has been
invoked at (most recent first), the settled bound (every timestamp below it
has been treated as settled), and whether a fatal `TimestampRegression` has
been reported. -/
structure PState where
  ins : List InView
  processed : List Int
  settled : Option Int
  failed : Bool
deriving DecidableEq

/-- The minimum pending timestamp across the input streams (each FIFO head is
its stream's minimal pending entry). -/
def minPend (ins : List InView) : Option Int :=
  (ins.filterMap (fun i => i.pending.head?)).min?

/-- The stream's bound has advanced past `T` ("nothing for you at this
time"). -/
def boundPast (i : InView) (T : Int) : Bool :=
  match i.bound with
  | none => false
  | some b => decide (T < b)

/-- Modelled from the spec §4.3 (default policy): the node is ready at the
minimum pending timestamp `T` when every input stream has a packet at `T`,
or has advanced its bound past `T`, or is closed. -/
def Ready (st : PState) (T : Int) : Prop :=
  minPend st.ins = some T ∧
  ∀ i ∈ st.ins,
    i.pending.head? = some T ∨ boundPast i T = true ∨ i.closed = true

instance (st : PState) (T : Int) : Decidable (Ready st T) := by
  unfold Ready; infer_instance

/-- Remove the head of a view's queue when it sits exactly at `T` (that packet
is delivered to `Process`). -/
def popAt (T : Int) (i : InView) : InView :=
  match i.pending with
  | t :: rest => if t = T then { i with pending := rest } else i
  | [] => i

/-- Update the view at position `k`. -/
def updateAt (k : Nat) (f : InView → InView) : List InView → List InView
  | [] => []
  | x :: xs =>
    match k with
    | 0 => f x :: xs
    | k + 1 => x :: updateAt k f xs

/-- Modelled from the spec §4.3/§4.6: the events seen by one node's
synchronized-min-timestamp policy.  `deliver`, `advance` and `closeIn` are the
stream notifications; `fire` is an execution of `Process` at the aligned
minimum pending timestamp, allowed only when the node is ready there and the
timestamp is not below the settled bound, and it settles everything at or
below that timestamp; `regress` is the fatal `TimestampRegression` of §4.3,
raised when a pending packet sits below the settled bound (it marks the node
failed instead of executing it). -/
inductive PStep : PState → PState → Prop where
  | deliver (st : PState) (k : Nat) (t : Int) :
      st.failed = false →
      PStep st { st with ins := updateAt k (fun i => { i with pending := i.pending ++ [t] }) st.ins }
  | advance (st : PState) (k : Nat) (b : Int) :
      st.failed = false →
      PStep st { st with ins := updateAt k (fun i => { i with bound := some b }) st.ins }
  | closeIn (st : PState) (k : Nat) :
      st.failed = false →
      PStep st { st with ins := updateAt k (fun i => { i with closed := true }) st.ins }
  | fire (st : PState) (T : Int) :
      st.failed = false →
      Ready st T →
      (∀ s, st.settled = some s → s ≤ T) →
      PStep st { st with ins := st.ins.map (popAt T),
                         processed := T :: st.processed,
                         settled := some (T + 1) }
  | regress (st : PState) (i : InView) (t s : Int) :
      st.failed = false →
      i ∈ st.ins → i.pending.head? = some t → st.settled = some s → t < s →
      PStep st { st with failed := true }

/-- The initial policy state of a node with `k` input streams. -/
def initP (k : Nat) : PState := ⟨List.replicate k ⟨[], none, false⟩, [], none, false⟩

/-- Policy states reachable from the initial state. -/
def PReachable (k : Nat) (st : PState) : Prop :=
  Relation.ReflTransGen PStep (initP k) st

/-- The policy invariant: executed timestamps are strictly decreasing (most
recent first) and all lie below the settled bound. -/
def PInv (st : PState) : Prop :=
  st.processed.Pairwise (fun a b => b < a) ∧
  ∀ t ∈ st.processed, ∃ s, st.settled = some s ∧ t < s

theorem pstep_pinv {st st' : PState} (h : PStep st st') (hinv : PInv st) :
    PInv st' := by
  obtain ⟨hpw, hbd⟩ := hinv
  cases h with
  | deliver k t hf => exact ⟨hpw, hbd⟩
  | advance k b hf => exact ⟨hpw, hbd⟩
  | closeIn k hf => exact ⟨hpw, hbd⟩
  | regress i t s hf hm hh hs hlt => exact ⟨hpw, hbd⟩
  | fire T hf hready hsettled =>
    constructor
    · refine List.Pairwise.cons ?_ hpw
      intro t ht
      obtain ⟨s, hs, hts⟩ := hbd t ht
      have := hsettled s hs
      omega
    · intro t ht
      rcases List.mem_cons.mp ht with rfl | ht
      · exact ⟨t + 1, rfl, by omega⟩
      · obtain ⟨s, hs, hts⟩ := hbd t ht
        have := hsettled s hs
        exact ⟨T + 1, rfl, by omega⟩

theorem preachable_pinv {k : Nat} {st : PState} (h : PReachable k st) :
    PInv st := by
  induction h with
  | refl => exact ⟨List.Pairwise.nil, by intro t ht; cases ht⟩
  | tail hr hstep ih => exact pstep_pinv hstep ih

end SyncPolicy

namespace SyncPolicy

/-- C2: under the default synchronized-min-timestamp policy the aligned
timestamps `Process` runs at are strictly decreasing in recency order — so
`Process` never runs twice for the same aligned timestamp — and the only step
that adds an execution at `T` requires readiness at `T`: every required input
stream has a packet at the minimum pending timestamp `T`, or has advanced its
bound past `T`, or is closed. -/
theorem c2_sync_policy_no_double_fire :
    (∀ (k : Nat) (st : PState), PReachable k st →
      st.processed.Pairwise (fun a b => b < a) ∧ st.processed.Nodup) ∧
    (∀ (st st' : PState) (T : Int), PStep st st' →
      st'.processed = T :: st.processed → Ready st T) := by
  constructor
  · intro k st h
    have hinv := preachable_pinv h
    exact ⟨hinv.1, hinv.1.imp (fun hlt => ne_of_gt hlt)⟩
  · intro st st' T h heq
    cases h with
    | deliver k t hf =>
      exfalso
      have hlen := congrArg List.length heq
      simp at hlen
    | advance k b hf =>
      exfalso
      have hlen := congrArg List.length heq
      simp at hlen
    | closeIn k hf =>
      exfalso
      have hlen := congrArg List.length heq
      simp at hlen
    | regress i t s hf hm hh hs hlt =>
      exfalso
      have hlen := congrArg List.length heq
      simp at hlen
    | fire T0 hf hready hsettled =>
      have heq' : T0 :: st.processed = T :: st.processed := heq
      injection heq' with h1 h2
      subst h1
      exact hready

/-- A one-input view holding a single pending packet at timestamp 5
(Scenario B's Stream A). -/
def viewA : InView := ⟨[5], none, false⟩

/-- A fresh one-input policy state with a packet pending at timestamp 5. -/
def stA : PState := ⟨[viewA], [], none, false⟩

/-- C2 witness: the no-double-execution bound at the initial state and the
readiness precondition extracted from a concrete `fire` at timestamp 5. -/
theorem c2_sync_policy_no_double_fire_witness :
    ((initP 2).processed.Pairwise (fun a b => b < a) ∧ (initP 2).processed.Nodup) ∧
      Ready stA 5 :=
  ⟨c2_sync_policy_no_double_fire.1 2 (initP 2) Relation.ReflTransGen.refl,
   c2_sync_policy_no_double_fire.2 stA _ 5
     (PStep.fire stA 5 rfl (by decide) (fun s hs => by cases hs)) rfl⟩

end SyncPolicy
